import Mathlib

/-!
Verification of the paragraph segmentation core of `ppsplit.py`.

The source program splits a list of sentences (each with an embedding
vector) into paragraphs with a single greedy forward pass
(`process_large_text`, lines 44-83), and post-processes the joined output
by padding `[dd:dd]` time markers with blank lines (`save_result`,
lines 132-141).

Embedding choices:
* vectors are `List ℝ`; numpy float arithmetic is idealized as exact real
  arithmetic, with `np.linalg.norm` as the square root of the sum of squares;
* the division `np.dot(v, cur) / (norms[i] * np.linalg.norm(v))` has a zero
  denominator exactly when one of the two vectors has zero norm, in which
  case numpy produces the IEEE NaN (0.0/0.0) instead of a real number.  We
  model the similarity as `Option ℝ`, `none` standing for that NaN.  A NaN
  propagates through `np.mean`, and every comparison `nan < threshold`
  is false, which is what `simLt none t = False` captures;
* the Python slice `l[-n:]` is `lastN n l`, including the `n = 0` quirk
  where `l[-0:]` is the whole list;
* `re.sub(r'(\[\d{2}:\d{2}\])', r'\n\n\1\n\n', s)` is `padMarkers`; the
  pattern has fixed width 7 and its matches can never overlap, so the
  left-to-right scan below is exactly Python's substitution (with `\d`
  read as a decimal digit).
-/

open Classical

namespace PPSplit

/-- Python slice `l[-n:]`: the last `n` elements; for `n = 0` Python's
`l[-0:]` is the whole list. Used for `prev_vectors[-window_size:]`. -/
def lastN {α : Type*} (n : ℕ) (l : List α) : List α :=
  if n = 0 then l else l.drop (l.length - n)

/-- Dot product of two embedding vectors, `np.dot`. -/
noncomputable def dot (u v : List ℝ) : ℝ :=
  (List.zipWith (fun a b => a * b) u v).sum

/-- Euclidean norm of a vector, `np.linalg.norm`. -/
noncomputable def vnorm (v : List ℝ) : ℝ :=
  Real.sqrt ((v.map fun x => x * x).sum)

/-- Line 59: `sim = np.dot(v, current_vec) / (norms[i] * np.linalg.norm(v))`.
`cur` is the current vector (index `i`), `v` a window vector.  When the
denominator is zero the numerator is zero as well and numpy yields the IEEE
NaN, modelled as `none`. -/
noncomputable def cosSim (cur v : List ℝ) : Option ℝ :=
  if vnorm cur * vnorm v = 0 then none
  else some (dot v cur / (vnorm cur * vnorm v))

/-- Line 61: `avg_similarity = np.mean(similarities) if similarities else 0`.
`np.mean` of a list containing a NaN is NaN. -/
noncomputable def avgSim (cur : List ℝ) (window : List (List ℝ)) : Option ℝ :=
  let sims := window.map fun v => cosSim cur v
  if sims.isEmpty then some 0
  else if sims.any fun o => o.isNone then none
  else some (sims.reduceOption.sum / (sims.length : ℝ))

/-- The comparison `avg_similarity < threshold` on line 65; a NaN compares
false against everything. -/
def simLt : Option ℝ → ℝ → Prop
  | none, _ => False
  | some a, t => a < t

/-- Loop state of `process_large_text`: `paragraphs`, `current_para`,
`prev_vectors` (lines 44-46). -/
structure SegState where
  paragraphs : List String
  currentPara : List String
  prevVectors : List (List ℝ)

/-- One iteration of the loop on lines 53-78: compute the window
(`prev_vectors[-window_size:]`), the average similarity, the break
conditions `avg_similarity < threshold` / `len(current_para) >= max_sentences`;
either close the paragraph and restart from the current sentence, or extend
it; finally truncate `prev_vectors` to the window size. -/
noncomputable def segStep (t : ℝ) (maxS wsize : ℕ) (st : SegState)
    (p : String × List ℝ) : SegState :=
  if simLt (avgSim p.2 (lastN wsize st.prevVectors)) t ∨ maxS ≤ st.currentPara.length then
    ⟨st.paragraphs ++ [String.intercalate " " st.currentPara], [p.1], lastN wsize [p.2]⟩
  else
    ⟨st.paragraphs, st.currentPara ++ [p.1], lastN wsize (st.prevVectors ++ [p.2])⟩

/-- Lines 80-81: `if current_para: paragraphs.append(" ".join(current_para))`. -/
noncomputable def segFinish (st : SegState) : List String :=
  st.paragraphs ++ (if st.currentPara = [] then [] else [String.intercalate " " st.currentPara])

/-- The segmentation core of `process_large_text` as a list of paragraph
strings: empty input gives no paragraphs (line 29-30); otherwise the state
starts with sentence 0 and vector 0, and the loop runs over indices
`1..N-1`.  The program always has exactly one vector per sentence; a
sentence list longer than the vector list cannot arise there (the extra
case returns `[]`). -/
noncomputable def processParas (t : ℝ) (maxS wsize : ℕ) :
    List String → List (List ℝ) → List String
  | [], _ => []
  | _ :: _, [] => []
  | s0 :: srest, v0 :: vrest =>
      segFinish ((srest.zip vrest).foldl (segStep t maxS wsize) ⟨[], [s0], [v0]⟩)

/-- Line 83: `return "\n\n".join(paragraphs)`. -/
noncomputable def processText (t : ℝ) (maxS wsize : ℕ)
    (sents : List String) (vecs : List (List ℝ)) : String :=
  String.intercalate "\n\n" (processParas t maxS wsize sents vecs)

/-- Line 49: `threshold = 0.65`. -/
def threshold : ℝ := 0.65

/-- Line 50: `max_sentences = 4`. -/
def max_sentences : ℕ := 4

/-- Line 51: `window_size = 2`. -/
def window_size : ℕ := 2

/-- Chunk-level state: identical to `SegState` except that a closed
paragraph is kept as its list of sentences instead of being joined into a
string at `append` time. -/
structure SegStateC where
  chunks : List (List String)
  currentPara : List String
  prevVectors : List (List ℝ)

/-- Chunk-level version of `segStep`: same control flow, the closed
paragraph is recorded as a sentence block. -/
noncomputable def segStepC (t : ℝ) (maxS wsize : ℕ) (st : SegStateC)
    (p : String × List ℝ) : SegStateC :=
  if simLt (avgSim p.2 (lastN wsize st.prevVectors)) t ∨ maxS ≤ st.currentPara.length then
    ⟨st.chunks ++ [st.currentPara], [p.1], lastN wsize [p.2]⟩
  else
    ⟨st.chunks, st.currentPara ++ [p.1], lastN wsize (st.prevVectors ++ [p.2])⟩

/-- Chunk-level version of `segFinish`. -/
noncomputable def segFinishC (st : SegStateC) : List (List String) :=
  st.chunks ++ (if st.currentPara = [] then [] else [st.currentPara])

/-- The segmentation result as blocks of sentences (index structure of the
paragraphs); `processParas` is its image under joining with single spaces. -/
noncomputable def processChunks (t : ℝ) (maxS wsize : ℕ) :
    List String → List (List ℝ) → List (List String)
  | [], _ => []
  | _ :: _, [] => []
  | s0 :: srest, v0 :: vrest =>
      segFinishC ((srest.zip vrest).foldl (segStepC t maxS wsize) ⟨[], [s0], [v0]⟩)

/-- The loop state after the iterations for sentence indices `1..k`
(equivalently: before the iteration for sentence index `k+1`). -/
noncomputable def stateAfter (t : ℝ) (maxS wsize : ℕ)
    (sents : List String) (vecs : List (List ℝ)) (k : ℕ) : SegState :=
  match sents, vecs with
  | [], _ => ⟨[], [], []⟩
  | _ :: _, [] => ⟨[], [], []⟩
  | s0 :: srest, v0 :: vrest =>
      ((srest.zip vrest).take k).foldl (segStep t maxS wsize) ⟨[], [s0], [v0]⟩

/-- Index of the first sentence of the paragraph that is current when the
loop iteration for sentence `i` begins. -/
noncomputable def paraStart (t : ℝ) (maxS wsize : ℕ)
    (sents : List String) (vecs : List (List ℝ)) (i : ℕ) : ℕ :=
  i - (stateAfter t maxS wsize sents vecs (i - 1)).currentPara.length

/-- The window `prev_vectors[-window_size:]` that the loop iteration for
sentence `i` compares the current vector against (line 58); the value
`avg_similarity` used in that iteration's break decision is
`avgSim (vector i) (windowAt ... i)` by definition of `segStep`. -/
noncomputable def windowAt (t : ℝ) (maxS wsize : ℕ)
    (sents : List String) (vecs : List (List ℝ)) (i : ℕ) : List (List ℝ) :=
  lastN wsize (stateAfter t maxS wsize sents vecs (i - 1)).prevVectors

/-- Does the character list start with a `[dd:dd]` time marker, the
pattern `\[\d{2}:\d{2}\]` of line 135? -/
def isMarker (l : List Char) : Bool :=
  match l with
  | a :: b :: c :: d :: e :: f :: g :: _ =>
      a == '[' && b.isDigit && c.isDigit && d == ':' && e.isDigit && f.isDigit && g == ']'
  | _ => false

/-- Line 135: `re.sub(r'(\[\d{2}:\d{2}\])', r'\n\n\1\n\n', processed)`.
The pattern has fixed width 7 and contains `[` only as its first character,
so matches never overlap and Python's left-to-right substitution is this
scan: each marker occurrence is replaced by itself padded with two newlines
on both sides. -/
def padMarkers : List Char → List Char
  | [] => []
  | c :: cs =>
    if isMarker (c :: cs) then
      '\n' :: '\n' :: ((c :: cs).take 7 ++ '\n' :: '\n' :: padMarkers ((c :: cs).drop 7))
    else
      c :: padMarkers cs
termination_by l => l.length
decreasing_by
  · simp only [List.length_drop, List.length_cons]
    omega
  · simp only [List.length_cons]
    omega

/-- Cosine similarity within a tolerance of 0.05, the reading of the
spec's "similarity about `c`" used for the worked example. -/
noncomputable def simAbout (cur v : List ℝ) (c : ℝ) : Prop :=
  ∃ r, cosSim cur v = some r ∧ |r - c| ≤ 0.05

section ListLemmas

variable {α : Type*}

theorem lastN_singleton (n : ℕ) (x : α) : lastN n [x] = [x] := by
  rcases n with _ | n <;> simp [lastN]

theorem lastN_length_le (n : ℕ) (l : List α) : (lastN n l).length ≤ l.length := by
  rcases n with _ | n <;> simp [lastN]

theorem lastN_idem (n : ℕ) (l : List α) : lastN n (lastN n l) = lastN n l := by
  rcases n with _ | n
  · simp [lastN]
  · simp only [lastN, if_neg (Nat.succ_ne_zero n), List.drop_drop, List.length_drop]
    congr 1
    omega

theorem lastN_append_one (n : ℕ) (l : List α) (x : α) :
    lastN n (lastN n l ++ [x]) = lastN n (l ++ [x]) := by
  rcases n with _ | n
  · simp [lastN]
  · rcases le_or_lt l.length (n + 1) with h | h
    · have h0 : l.length - (n + 1) = 0 := by omega
      simp [lastN, h0]
    · have hd : lastN (n + 1) l = l.drop (l.length - (n + 1)) := by simp [lastN]
      rw [hd]
      have hL1 : (l.drop (l.length - (n + 1)) ++ [x]).length - (n + 1) = 1 := by
        simp only [List.length_append, List.length_drop, List.length_cons, List.length_nil]
        omega
      have hL2 : (l ++ [x]).length - (n + 1) = (l.length - (n + 1)) + 1 := by
        simp only [List.length_append, List.length_cons, List.length_nil]
        omega
      simp only [lastN, if_neg (Nat.succ_ne_zero n), hL1, hL2]
      rw [List.drop_append_of_le_length (by simp only [List.length_drop]; omega),
        List.drop_append_of_le_length (by omega)]
      rw [List.drop_drop]

theorem lastN_drop (n m : ℕ) (l : List α) (hn : 1 ≤ n) (hm : m < l.length) :
    lastN n (l.drop m) = lastN (min n (l.length - m)) l := by
  have hmin : 1 ≤ min n (l.length - m) := by omega
  simp only [lastN, if_neg (by omega : ¬ n = 0), if_neg (by omega : ¬ min n (l.length - m) = 0),
    List.length_drop, List.drop_drop]
  congr 1
  omega

theorem lastN_length (n : ℕ) (l : List α) (hn : 1 ≤ n) :
    (lastN n l).length = min n l.length := by
  simp only [lastN, if_neg (by omega : ¬ n = 0), List.length_drop]
  omega

end ListLemmas

/-- Folding `segStepC` from a state whose current paragraph is non-empty and
within the length bound produces the already-closed chunks followed by
blocks that exactly cover the current paragraph and the remaining
sentences, each block non-empty and at most `maxS` long. -/
theorem build_chunks (t : ℝ) (maxS wsize : ℕ) :
    ∀ (rest : List (String × List ℝ)) (st : SegStateC),
      st.currentPara ≠ [] → st.currentPara.length ≤ maxS →
      ∃ chunks : List (List String),
        segFinishC (rest.foldl (segStepC t maxS wsize) st) = st.chunks ++ chunks ∧
        chunks.flatten = st.currentPara ++ rest.map Prod.fst ∧
        ∀ c ∈ chunks, c ≠ [] ∧ c.length ≤ maxS := by
  intro rest
  induction rest with
  | nil =>
    intro st h1 h2
    refine ⟨[st.currentPara], ?_, by simp, ?_⟩
    · simp [segFinishC, h1]
    · intro c hc
      rw [List.mem_singleton] at hc
      exact hc ▸ ⟨h1, h2⟩
  | cons p rest ih =>
    intro st h1 h2
    rw [List.foldl_cons]
    by_cases hbr : simLt (avgSim p.2 (lastN wsize st.prevVectors)) t ∨ maxS ≤ st.currentPara.length
    · have hstep : segStepC t maxS wsize st p =
          ⟨st.chunks ++ [st.currentPara], [p.1], lastN wsize [p.2]⟩ := by
        rw [segStepC, if_pos hbr]
      have hm1 : 1 ≤ maxS := le_trans (by simpa using List.length_pos.mpr h1) h2
      obtain ⟨ch, e1, e2, e3⟩ :=
        ih ⟨st.chunks ++ [st.currentPara], [p.1], lastN wsize [p.2]⟩ (by simp) (by simpa using hm1)
      refine ⟨st.currentPara :: ch, ?_, ?_, ?_⟩
      · rw [hstep, e1]
        simp
      · simp only [List.flatten, e2]
        simp
      · intro c hc
        rcases List.mem_cons.mp hc with hc | hc
        · exact hc ▸ ⟨h1, h2⟩
        · exact e3 c hc
    · have hstep : segStepC t maxS wsize st p =
          ⟨st.chunks, st.currentPara ++ [p.1], lastN wsize (st.prevVectors ++ [p.2])⟩ := by
        rw [segStepC, if_neg hbr]
      have hlen : (st.currentPara ++ [p.1]).length ≤ maxS := by
        push_neg at hbr
        simp only [List.length_append, List.length_cons, List.length_nil]
        omega
      obtain ⟨ch, e1, e2, e3⟩ :=
        ih ⟨st.chunks, st.currentPara ++ [p.1], lastN wsize (st.prevVectors ++ [p.2])⟩
          (by simp) hlen
      refine ⟨ch, ?_, ?_, e3⟩
      · rw [hstep, e1]
      · rw [e2]
        simp

/-- The string-level run is the chunk-level run joined with single spaces:
the two folds keep the same current paragraph and window, and the
paragraph strings are the chunk joins. -/
theorem paras_eq_chunks_fold (t : ℝ) (maxS wsize : ℕ) :
    ∀ (rest : List (String × List ℝ)) (st : SegState) (stC : SegStateC),
      st.paragraphs = stC.chunks.map (String.intercalate " ") →
      st.currentPara = stC.currentPara → st.prevVectors = stC.prevVectors →
      segFinish (rest.foldl (segStep t maxS wsize) st) =
        (segFinishC (rest.foldl (segStepC t maxS wsize) stC)).map (String.intercalate " ") := by
  intro rest
  induction rest with
  | nil =>
    intro st stC hp hc hv
    simp only [List.foldl_nil, segFinish, segFinishC, hp, hc]
    by_cases h0 : stC.currentPara = [] <;> simp [h0]
  | cons p rest ih =>
    intro st stC hp hc hv
    rw [List.foldl_cons, List.foldl_cons]
    by_cases hbr : simLt (avgSim p.2 (lastN wsize stC.prevVectors)) t ∨ maxS ≤ stC.currentPara.length
    · rw [show segStep t maxS wsize st p =
          ⟨st.paragraphs ++ [String.intercalate " " st.currentPara], [p.1], lastN wsize [p.2]⟩ from
        by rw [segStep, if_pos (by rw [hv, hc]; exact hbr)]]
      rw [show segStepC t maxS wsize stC p =
          ⟨stC.chunks ++ [stC.currentPara], [p.1], lastN wsize [p.2]⟩ from
        by rw [segStepC, if_pos hbr]]
      exact ih _ _ (by simp [hp, hc]) rfl rfl
    · rw [show segStep t maxS wsize st p =
          ⟨st.paragraphs, st.currentPara ++ [p.1], lastN wsize (st.prevVectors ++ [p.2])⟩ from
        by rw [segStep, if_neg (by rw [hv, hc]; exact hbr)]]
      rw [show segStepC t maxS wsize stC p =
          ⟨stC.chunks, stC.currentPara ++ [p.1], lastN wsize (stC.prevVectors ++ [p.2])⟩ from
        by rw [segStepC, if_neg hbr]]
      exact ih _ _ hp (by rw [hc]) (by rw [hv])

/-- The paragraph strings are the sentence chunks joined with single spaces. -/
theorem processParas_eq_chunks (t : ℝ) (maxS wsize : ℕ)
    (sents : List String) (vecs : List (List ℝ)) :
    processParas t maxS wsize sents vecs =
      (processChunks t maxS wsize sents vecs).map (String.intercalate " ") := by
  match sents, vecs with
  | [], _ => rfl
  | _ :: _, [] => rfl
  | s0 :: srest, v0 :: vrest =>
    exact paras_eq_chunks_fold t maxS wsize (srest.zip vrest)
      ⟨[], [s0], [v0]⟩ ⟨[], [s0], [v0]⟩ rfl rfl rfl

/-- Unfolding one loop iteration: the state after the iterations for
indices `1..k+1` is `segStep` applied to the state after `1..k` and the
pair at index `k+1`. -/
theorem stateAfter_succ (t : ℝ) (maxS wsize : ℕ) (s0 : String) (ss : List String)
    (v0 : List ℝ) (vs : List (List ℝ)) (k : ℕ) (hk1 : k < ss.length) (hk2 : k < vs.length) :
    stateAfter t maxS wsize (s0 :: ss) (v0 :: vs) (k + 1) =
      segStep t maxS wsize (stateAfter t maxS wsize (s0 :: ss) (v0 :: vs) k)
        (ss[k], vs[k]) := by
  show ((ss.zip vs).take (k + 1)).foldl (segStep t maxS wsize) ⟨[], [s0], [v0]⟩ = _
  have hk : k < (ss.zip vs).length := by
    rw [List.length_zip]
    omega
  rw [List.take_succ, List.getElem?_eq_getElem hk, Option.toList_some, List.foldl_append]
  rw [List.getElem_zip]
  rfl

/-- Loop invariant: after the iterations for indices `1..k`, the current
paragraph is the contiguous block of sentences from its start index to `k`,
and `prev_vectors` is the `window_size`-suffix of the vectors of that same
block. -/
theorem stateAfter_inv (t : ℝ) (maxS wsize : ℕ) (s0 : String) (ss : List String)
    (v0 : List ℝ) (vs : List (List ℝ)) (hlen : ss.length = vs.length) :
    ∀ k, k ≤ ss.length →
      1 ≤ (stateAfter t maxS wsize (s0 :: ss) (v0 :: vs) k).currentPara.length ∧
      (stateAfter t maxS wsize (s0 :: ss) (v0 :: vs) k).currentPara.length ≤ k + 1 ∧
      (stateAfter t maxS wsize (s0 :: ss) (v0 :: vs) k).currentPara =
        ((s0 :: ss).take (k + 1)).drop
          (k + 1 - (stateAfter t maxS wsize (s0 :: ss) (v0 :: vs) k).currentPara.length) ∧
      (stateAfter t maxS wsize (s0 :: ss) (v0 :: vs) k).prevVectors =
        lastN wsize (((v0 :: vs).take (k + 1)).drop
          (k + 1 - (stateAfter t maxS wsize (s0 :: ss) (v0 :: vs) k).currentPara.length)) := by
  intro k
  induction k with
  | zero =>
    intro _
    refine ⟨by simp [stateAfter], by simp [stateAfter], by simp [stateAfter], ?_⟩
    show [v0] = lastN wsize (((v0 :: vs).take 1).drop (1 - 1))
    simp [lastN_singleton]
  | succ k ih =>
    intro hk
    obtain ⟨h1, h2, h3, h4⟩ := ih (by omega)
    have hk1 : k < ss.length := by omega
    have hk2 : k < vs.length := by omega
    rw [stateAfter_succ t maxS wsize s0 ss v0 vs k hk1 hk2]
    set st := stateAfter t maxS wsize (s0 :: ss) (v0 :: vs) k with hst
    have hA : (s0 :: ss).take (k + 2) = (s0 :: ss).take (k + 1) ++ [ss[k]] := by
      rw [List.take_succ, List.getElem?_eq_getElem (by simp; omega : k + 1 < (s0 :: ss).length)]
      simp
    have hB : (v0 :: vs).take (k + 2) = (v0 :: vs).take (k + 1) ++ [vs[k]] := by
      rw [List.take_succ, List.getElem?_eq_getElem (by simp; omega : k + 1 < (v0 :: vs).length)]
      simp
    have hAlen : ((s0 :: ss).take (k + 1)).length = k + 1 := by
      rw [List.length_take]
      simp
      omega
    have hBlen : ((v0 :: vs).take (k + 1)).length = k + 1 := by
      rw [List.length_take]
      simp
      omega
    by_cases hbr : simLt (avgSim vs[k] (lastN wsize st.prevVectors)) t ∨ maxS ≤ st.currentPara.length
    · rw [show segStep t maxS wsize st (ss[k], vs[k]) =
          ⟨st.paragraphs ++ [String.intercalate " " st.currentPara], [ss[k]], lastN wsize [vs[k]]⟩ from
        by rw [segStep, if_pos hbr]]
      refine ⟨by simp, by simp, ?_, ?_⟩
      · show [ss[k]] = ((s0 :: ss).take (k + 2)).drop (k + 2 - 1)
        rw [hA, show k + 2 - 1 = k + 1 from rfl,
          List.drop_append_of_le_length (by omega),
          List.drop_eq_nil_of_le (by omega)]
        rfl
      · show lastN wsize [vs[k]] =
          lastN wsize (((v0 :: vs).take (k + 2)).drop (k + 2 - 1))
        rw [hB, show k + 2 - 1 = k + 1 from rfl,
          List.drop_append_of_le_length (by omega),
          List.drop_eq_nil_of_le (by omega)]
        rfl
    · rw [show segStep t maxS wsize st (ss[k], vs[k]) =
          ⟨st.paragraphs, st.currentPara ++ [ss[k]], lastN wsize (st.prevVectors ++ [vs[k]])⟩ from
        by rw [segStep, if_neg hbr]]
      have hL : st.currentPara.length ≤ k + 1 := h2
      refine ⟨by simp, by simp; omega, ?_, ?_⟩
      · show st.currentPara ++ [ss[k]] =
          ((s0 :: ss).take (k + 2)).drop (k + 2 - (st.currentPara ++ [ss[k]]).length)
        rw [show (st.currentPara ++ [ss[k]]).length = st.currentPara.length + 1 from by simp]
        rw [hA, show k + 2 - (st.currentPara.length + 1) = k + 1 - st.currentPara.length from by omega,
          List.drop_append_of_le_length (by omega), ← h3]
      · show lastN wsize (st.prevVectors ++ [vs[k]]) =
          lastN wsize (((v0 :: vs).take (k + 2)).drop (k + 2 - (st.currentPara ++ [ss[k]]).length))
        rw [show (st.currentPara ++ [ss[k]]).length = st.currentPara.length + 1 from by simp]
        rw [hB, show k + 2 - (st.currentPara.length + 1) = k + 1 - st.currentPara.length from by omega,
          List.drop_append_of_le_length (by omega), h4, lastN_append_one]

/-- C3: at every loop iteration `1 ≤ i ≤ N-1`, the current paragraph is
the block of sentences from its start index `s` to `i-1`, and the window
the break decision's `avg_similarity` is computed over is exactly the most
recent `min(window_size, i - s)` vectors strictly prior to vector `i`; it
is never empty, so the `else 0` fallback of line 61 is never taken, and the
iteration's state update is `segStep` on the pair at index `i`. -/
theorem window_contents (t : ℝ) (maxS wsize : ℕ) (hw : 1 ≤ wsize)
    (sents : List String) (vecs : List (List ℝ)) (hlen : sents.length = vecs.length)
    (i : ℕ) (hi1 : 1 ≤ i) (hi2 : i < sents.length) :
    (stateAfter t maxS wsize sents vecs (i - 1)).currentPara =
      (sents.take i).drop (paraStart t maxS wsize sents vecs i) ∧
    paraStart t maxS wsize sents vecs i +
      (stateAfter t maxS wsize sents vecs (i - 1)).currentPara.length = i ∧
    windowAt t maxS wsize sents vecs i =
      lastN (min wsize (i - paraStart t maxS wsize sents vecs i)) (vecs.take i) ∧
    (windowAt t maxS wsize sents vecs i).length =
      min wsize (i - paraStart t maxS wsize sents vecs i) ∧
    windowAt t maxS wsize sents vecs i ≠ [] ∧
    stateAfter t maxS wsize sents vecs i =
      segStep t maxS wsize (stateAfter t maxS wsize sents vecs (i - 1))
        (sents.getD i "", vecs.getD i []) := by
  match sents, vecs, hlen with
  | [], _, hlen => exact absurd hi2 (by simp)
  | s0 :: ss, [], hlen => exact absurd hlen (by simp)
  | s0 :: ss, v0 :: vs, hlen =>
    have hlen' : ss.length = vs.length := by simpa using hlen
    obtain ⟨k, rfl⟩ : ∃ k, i = k + 1 := ⟨i - 1, by omega⟩
    have hk1 : k < ss.length := by simpa using hi2
    have hk2 : k < vs.length := by omega
    obtain ⟨h1, h2, h3, h4⟩ :=
      stateAfter_inv t maxS wsize s0 ss v0 vs hlen' k (by omega)
    set st := stateAfter t maxS wsize (s0 :: ss) (v0 :: vs) k with hst
    have hred : (stateAfter t maxS wsize (s0 :: ss) (v0 :: vs) (k + 1 - 1)) = st := rfl
    have hps : paraStart t maxS wsize (s0 :: ss) (v0 :: vs) (k + 1) =
        k + 1 - st.currentPara.length := rfl
    have hXlen : ((v0 :: vs).take (k + 1)).length = k + 1 := by
      rw [List.length_take]
      simp
      omega
    have hwin : windowAt t maxS wsize (s0 :: ss) (v0 :: vs) (k + 1) =
        lastN (min wsize (k + 1 - (k + 1 - st.currentPara.length))) ((v0 :: vs).take (k + 1)) := by
      show lastN wsize st.prevVectors = _
      rw [h4, lastN_idem, lastN_drop wsize (k + 1 - st.currentPara.length)
        ((v0 :: vs).take (k + 1)) hw (by omega), hXlen]
    have hwlen : (windowAt t maxS wsize (s0 :: ss) (v0 :: vs) (k + 1)).length =
        min wsize (k + 1 - (k + 1 - st.currentPara.length)) := by
      rw [hwin, lastN_length _ _ (by omega), hXlen]
      omega
    refine ⟨?_, ?_, ?_, ?_, ?_, ?_⟩
    · rw [hred, hps]
      exact h3
    · rw [hred, hps]
      omega
    · rw [hps]
      exact hwin
    · rw [hps]
      exact hwlen
    · apply List.length_pos.mp
      rw [hwlen]
      omega
    · rw [hred, stateAfter_succ t maxS wsize s0 ss v0 vs k hk1 hk2]
      congr 1
      show (ss[k], vs[k]) = ((s0 :: ss).getD (k + 1) "", (v0 :: vs).getD (k + 1) [])
      rw [show (s0 :: ss).getD (k + 1) "" = ss.getD k "" from rfl,
        show (v0 :: vs).getD (k + 1) [] = vs.getD k [] from rfl,
        List.getD_eq_getElem ss "" hk1, List.getD_eq_getElem vs [] hk2]

/-- Closed instance of `window_contents` at a concrete input. -/
theorem window_contents_witness :
    (stateAfter 0.65 4 2 ["a", "b"] [[1], [1]] (1 - 1)).currentPara =
      ((["a", "b"] : List String).take 1).drop (paraStart 0.65 4 2 ["a", "b"] [[1], [1]] 1) ∧
    paraStart 0.65 4 2 ["a", "b"] [[1], [1]] 1 +
      (stateAfter 0.65 4 2 ["a", "b"] [[1], [1]] (1 - 1)).currentPara.length = 1 ∧
    windowAt 0.65 4 2 ["a", "b"] [[1], [1]] 1 =
      lastN (min 2 (1 - paraStart 0.65 4 2 ["a", "b"] [[1], [1]] 1))
        (([[1], [1]] : List (List ℝ)).take 1) ∧
    (windowAt 0.65 4 2 ["a", "b"] [[1], [1]] 1).length =
      min 2 (1 - paraStart 0.65 4 2 ["a", "b"] [[1], [1]] 1) ∧
    windowAt 0.65 4 2 ["a", "b"] [[1], [1]] 1 ≠ [] ∧
    stateAfter 0.65 4 2 ["a", "b"] [[1], [1]] 1 =
      segStep 0.65 4 2 (stateAfter 0.65 4 2 ["a", "b"] [[1], [1]] (1 - 1))
        ((["a", "b"] : List String).getD 1 "", ([[1], [1]] : List (List ℝ)).getD 1 []) :=
  window_contents 0.65 4 2 (by norm_num) ["a", "b"] [[1], [1]] rfl 1 (by norm_num) (by simp)

/-- A chunk list whose blocks are all singletons maps under space-joining
to its own flattening. -/
theorem map_intercalate_of_singletons :
    ∀ (chunks : List (List String)), (∀ c ∈ chunks, c ≠ [] ∧ c.length ≤ 1) →
      chunks.map (String.intercalate " ") = chunks.flatten := by
  intro chunks
  induction chunks with
  | nil => intro _; rfl
  | cons c rest ih =>
    intro h
    obtain ⟨hne, hle⟩ := h c (by simp)
    rcases c with _ | ⟨x, _ | ⟨y, c⟩⟩
    · exact absurd rfl hne
    · simp only [List.map_cons, List.flatten_cons]
      rw [ih (fun d hd => h d (by simp [hd]))]
      rfl
    · simp at hle

/-- C1: the segmentation result is a partition of the sentences into
contiguous, non-overlapping, order-preserving, non-empty blocks whose
concatenation is the input, each paragraph being its block joined with
single spaces. -/
theorem partition_into_chunks (sents : List String) (vecs : List (List ℝ))
    (hne : sents ≠ []) (hlen : sents.length = vecs.length) :
    ∃ chunks : List (List String),
      chunks.flatten = sents ∧ (∀ c ∈ chunks, c ≠ []) ∧
      processParas threshold max_sentences window_size sents vecs =
        chunks.map (String.intercalate " ") := by
  match sents, vecs with
  | [], _ => exact absurd rfl hne
  | s0 :: srest, [] => simp at hlen
  | s0 :: srest, v0 :: vrest =>
    obtain ⟨chunks, e1, e2, e3⟩ :=
      build_chunks threshold max_sentences window_size (srest.zip vrest)
        ⟨[], [s0], [v0]⟩ (by simp) (by simp [max_sentences])
    refine ⟨chunks, ?_, fun c hc => (e3 c hc).1, ?_⟩
    · rw [e2]
      have hfst : (srest.zip vrest).map Prod.fst = srest :=
        List.map_fst_zip _ _ (by simp at hlen; omega)
      simp [hfst]
    · rw [processParas_eq_chunks]
      have hpc : processChunks threshold max_sentences window_size
          (s0 :: srest) (v0 :: vrest) = chunks := by
        show segFinishC _ = chunks
        rw [e1]
        rfl
      rw [hpc]

/-- Closed instance of `partition_into_chunks` at a concrete input. -/
theorem partition_into_chunks_witness :
    ∃ chunks : List (List String),
      chunks.flatten = ["a", "b"] ∧ (∀ c ∈ chunks, c ≠ []) ∧
      processParas threshold max_sentences window_size ["a", "b"] [[1], [1]] =
        chunks.map (String.intercalate " ") :=
  partition_into_chunks ["a", "b"] [[1], [1]] (by simp) (by simp)

/-- C2: every block of the segmentation result holds between 1 and
`max_sentences` (= 4) sentences. -/
theorem paragraph_length_bounds (sents : List String) (vecs : List (List ℝ))
    (c : List String)
    (hc : c ∈ processChunks threshold max_sentences window_size sents vecs) :
    1 ≤ c.length ∧ c.length ≤ max_sentences := by
  match sents, vecs with
  | [], v => exact absurd hc (by simp [processChunks])
  | s0 :: srest, [] => exact absurd hc (by simp [processChunks])
  | s0 :: srest, v0 :: vrest =>
    obtain ⟨chunks, e1, e2, e3⟩ :=
      build_chunks threshold max_sentences window_size (srest.zip vrest)
        ⟨[], [s0], [v0]⟩ (by simp) (by simp [max_sentences])
    have hpc : processChunks threshold max_sentences window_size
        (s0 :: srest) (v0 :: vrest) = chunks := by
      show segFinishC _ = chunks
      rw [e1]
      rfl
    rw [hpc] at hc
    obtain ⟨hcne, hcle⟩ := e3 c hc
    exact ⟨List.length_pos.mpr hcne, hcle⟩

/-- Closed instance of `paragraph_length_bounds` at a concrete input. -/
theorem paragraph_length_bounds_witness :
    1 ≤ (["a"] : List String).length ∧ (["a"] : List String).length ≤ max_sentences :=
  paragraph_length_bounds ["a"] [[1]] ["a"] (by simp [processChunks, segFinishC])

/-- C8: with `max_sentences = 1` the length-break condition fires at every
step, so the output is one single-sentence paragraph per input sentence,
for every threshold and window size. -/
theorem max_sentences_one_splits_all (t : ℝ) (w : ℕ)
    (sents : List String) (vecs : List (List ℝ))
    (hlen : sents.length = vecs.length) :
    processParas t 1 w sents vecs = sents := by
  match sents, vecs with
  | [], _ => rfl
  | s0 :: srest, [] => simp at hlen
  | s0 :: srest, v0 :: vrest =>
    obtain ⟨chunks, e1, e2, e3⟩ :=
      build_chunks t 1 w (srest.zip vrest) ⟨[], [s0], [v0]⟩ (by simp) (by simp)
    rw [processParas_eq_chunks]
    have hpc : processChunks t 1 w (s0 :: srest) (v0 :: vrest) = chunks := by
      show segFinishC _ = chunks
      rw [e1]
      rfl
    rw [hpc, map_intercalate_of_singletons chunks e3, e2]
    have hfst : (srest.zip vrest).map Prod.fst = srest :=
      List.map_fst_zip _ _ (by simp at hlen; omega)
    simp [hfst]

/-- Closed instance of `max_sentences_one_splits_all` at a concrete input. -/
theorem max_sentences_one_splits_all_witness :
    processParas 0.65 1 2 ["a", "b"] [[1], [2]] = ["a", "b"] :=
  max_sentences_one_splits_all 0.65 2 ["a", "b"] [[1], [2]] rfl

/-- Norm of a two-dimensional vector with a known exact square root. -/
theorem vnorm_pair (a b n : ℝ) (hn : 0 ≤ n) (h : a * a + (b * b + 0) = n * n) :
    vnorm [a, b] = n := by
  simp only [vnorm, List.map_cons, List.map_nil, List.sum_cons, List.sum_nil, h]
  exact Real.sqrt_mul_self hn

/-- Dot product of two-dimensional vectors. -/
theorem dot_pair (a b c d : ℝ) : dot [a, b] [c, d] = a * c + b * d := by
  simp [dot]

/-- Evaluation of `cosSim` when both norms are known and non-zero. -/
theorem cosSim_eval (cur v : List ℝ) (ncur nv : ℝ)
    (hcur : vnorm cur = ncur) (hv : vnorm v = nv) (hnz : ncur * nv ≠ 0) :
    cosSim cur v = some (dot v cur / (ncur * nv)) := by
  rw [cosSim, hcur, hv, if_neg hnz]

/-- Average over a one-vector window. -/
theorem avgSim_one (cur v : List ℝ) (r : ℝ) (h : cosSim cur v = some r) :
    avgSim cur [v] = some r := by
  simp [avgSim, h]

/-- Average over a two-vector window. -/
theorem avgSim_two (cur v1 v2 : List ℝ) (r1 r2 : ℝ)
    (h1 : cosSim cur v1 = some r1) (h2 : cosSim cur v2 = some r2) :
    avgSim cur [v1, v2] = some ((r1 + r2) / 2) := by
  simp [avgSim, h1, h2]

/-- A NaN similarity makes the whole average NaN (`np.mean` propagation). -/
theorem avgSim_nan_one (cur v : List ℝ) (h : cosSim cur v = none) :
    avgSim cur [v] = none := by
  simp [avgSim, h]

/-- A breaking iteration of the loop. -/
theorem segStep_break (t : ℝ) (maxS wsize : ℕ) (st : SegState) (p : String × List ℝ)
    (h : simLt (avgSim p.2 (lastN wsize st.prevVectors)) t ∨ maxS ≤ st.currentPara.length) :
    segStep t maxS wsize st p =
      ⟨st.paragraphs ++ [String.intercalate " " st.currentPara], [p.1], lastN wsize [p.2]⟩ := by
  rw [segStep, if_pos h]

/-- An extending iteration of the loop. -/
theorem segStep_extend (t : ℝ) (maxS wsize : ℕ) (st : SegState) (p : String × List ℝ)
    (h : ¬(simLt (avgSim p.2 (lastN wsize st.prevVectors)) t ∨ maxS ≤ st.currentPara.length)) :
    segStep t maxS wsize st p =
      ⟨st.paragraphs, st.currentPara ++ [p.1], lastN wsize (st.prevVectors ++ [p.2])⟩ := by
  rw [segStep, if_neg h]

/-- C4: the spec's worked example.  For five sentences whose vectors make
A, B, C mutually near-identical (cosine similarity about 0.99), D and E
near-identical to each other, and D, E dissimilar (about 0.1) to A, B, C,
the default configuration produces exactly the two paragraphs
"A. B. C." and "D. E.". -/
theorem example_two_paragraphs (vA vB vC vD vE : List ℝ)
    (hAB : simAbout vB vA 0.99) (hAC : simAbout vC vA 0.99) (hBC : simAbout vC vB 0.99)
    (hDE : simAbout vE vD 0.99)
    (hAD : simAbout vD vA 0.1) (hBD : simAbout vD vB 0.1) (hCD : simAbout vD vC 0.1)
    (hAE : simAbout vE vA 0.1) (hBE : simAbout vE vB 0.1) (hCE : simAbout vE vC 0.1) :
    processParas threshold max_sentences window_size
      ["A.", "B.", "C.", "D.", "E."] [vA, vB, vC, vD, vE] = ["A. B. C.", "D. E."] := by
  obtain ⟨r1, e1, b1⟩ := hAB
  obtain ⟨r2, e2, b2⟩ := hAC
  obtain ⟨r3, e3, b3⟩ := hBC
  obtain ⟨r4, e4, b4⟩ := hBD
  obtain ⟨r5, e5, b5⟩ := hCD
  obtain ⟨r6, e6, b6⟩ := hDE
  rw [abs_le] at b1 b2 b3 b4 b5 b6
  have s1 : segStep threshold max_sentences window_size ⟨[], ["A."], [vA]⟩ ("B.", vB) =
      ⟨[], ["A.", "B."], [vA, vB]⟩ := by
    have hc : ¬(simLt (avgSim vB [vA]) threshold ∨
        max_sentences ≤ ([("A." : String)]).length) := by
      rw [avgSim_one vB vA r1 e1]
      simp [simLt, threshold, max_sentences]
      linarith [b1.1]
    rw [segStep_extend threshold max_sentences window_size ⟨[], ["A."], [vA]⟩ ("B.", vB) hc]
    exact rfl
  have s2 : segStep threshold max_sentences window_size ⟨[], ["A.", "B."], [vA, vB]⟩
      ("C.", vC) = ⟨[], ["A.", "B.", "C."], [vB, vC]⟩ := by
    have hc : ¬(simLt (avgSim vC [vA, vB]) threshold ∨
        max_sentences ≤ ([("A." : String), "B."]).length) := by
      rw [avgSim_two vC vA vB r2 r3 e2 e3]
      simp [simLt, threshold, max_sentences]
      linarith [b2.1, b3.1]
    rw [segStep_extend threshold max_sentences window_size ⟨[], ["A.", "B."], [vA, vB]⟩
      ("C.", vC) hc]
    exact rfl
  have s3 : segStep threshold max_sentences window_size ⟨[], ["A.", "B.", "C."], [vB, vC]⟩
      ("D.", vD) = ⟨["A. B. C."], ["D."], [vD]⟩ := by
    have hc : simLt (avgSim vD [vB, vC]) threshold ∨
        max_sentences ≤ ([("A." : String), "B.", "C."]).length := by
      rw [avgSim_two vD vB vC r4 r5 e4 e5]
      refine Or.inl ?_
      show (r4 + r5) / 2 < threshold
      rw [threshold]
      norm_num
      linarith [b4.2, b5.2]
    rw [segStep_break threshold max_sentences window_size ⟨[], ["A.", "B.", "C."], [vB, vC]⟩
      ("D.", vD) hc]
    exact rfl
  have s4 : segStep threshold max_sentences window_size ⟨["A. B. C."], ["D."], [vD]⟩
      ("E.", vE) = ⟨["A. B. C."], ["D.", "E."], [vD, vE]⟩ := by
    have hc : ¬(simLt (avgSim vE [vD]) threshold ∨
        max_sentences ≤ ([("D." : String)]).length) := by
      rw [avgSim_one vE vD r6 e6]
      simp [simLt, threshold, max_sentences]
      linarith [b6.1]
    rw [segStep_extend threshold max_sentences window_size ⟨["A. B. C."], ["D."], [vD]⟩
      ("E.", vE) hc]
    exact rfl
  show segFinish ([("B.", vB), ("C.", vC), ("D.", vD), ("E.", vE)].foldl
    (segStep threshold max_sentences window_size) ⟨[], ["A."], [vA]⟩) = _
  rw [List.foldl_cons, s1, List.foldl_cons, s2, List.foldl_cons, s3,
    List.foldl_cons, s4, List.foldl_nil]
  rfl

/-- Closed instance of `example_two_paragraphs` at concrete integer
vectors realizing the required similarities (within-group about 0.99,
cross-group about 0.1). -/
theorem example_two_paragraphs_witness :
    processParas threshold max_sentences window_size
      ["A.", "B.", "C.", "D.", "E."]
      [[20, 21], [21, 20], [119, 120], [-133, 156], [-225, 272]] =
      ["A. B. C.", "D. E."] := by
  have nA : vnorm [(20 : ℝ), 21] = 29 := vnorm_pair 20 21 29 (by norm_num) (by norm_num)
  have nB : vnorm [(21 : ℝ), 20] = 29 := vnorm_pair 21 20 29 (by norm_num) (by norm_num)
  have nC : vnorm [(119 : ℝ), 120] = 169 := vnorm_pair 119 120 169 (by norm_num) (by norm_num)
  have nD : vnorm [(-133 : ℝ), 156] = 205 :=
    vnorm_pair (-133) 156 205 (by norm_num) (by norm_num)
  have nE : vnorm [(-225 : ℝ), 272] = 353 :=
    vnorm_pair (-225) 272 353 (by norm_num) (by norm_num)
  apply example_two_paragraphs
  · exact ⟨840 / 841,
      by rw [cosSim_eval _ _ 29 29 nB nA (by norm_num), dot_pair]; norm_num,
      by rw [abs_le]; norm_num⟩
  · exact ⟨4900 / 4901,
      by rw [cosSim_eval _ _ 169 29 nC nA (by norm_num), dot_pair]; norm_num,
      by rw [abs_le]; norm_num⟩
  · exact ⟨4899 / 4901,
      by rw [cosSim_eval _ _ 169 29 nC nB (by norm_num), dot_pair]; norm_num,
      by rw [abs_le]; norm_num⟩
  · exact ⟨72357 / 72365,
      by rw [cosSim_eval _ _ 353 205 nE nD (by norm_num), dot_pair]; norm_num,
      by rw [abs_le]; norm_num⟩
  · exact ⟨616 / 5945,
      by rw [cosSim_eval _ _ 205 29 nD nA (by norm_num), dot_pair]; norm_num,
      by rw [abs_le]; norm_num⟩
  · exact ⟨327 / 5945,
      by rw [cosSim_eval _ _ 205 29 nD nB (by norm_num), dot_pair]; norm_num,
      by rw [abs_le]; norm_num⟩
  · exact ⟨2893 / 34645,
      by rw [cosSim_eval _ _ 205 169 nD nC (by norm_num), dot_pair]; norm_num,
      by rw [abs_le]; norm_num⟩
  · exact ⟨1212 / 10237,
      by rw [cosSim_eval _ _ 353 29 nE nA (by norm_num), dot_pair]; norm_num,
      by rw [abs_le]; norm_num⟩
  · exact ⟨715 / 10237,
      by rw [cosSim_eval _ _ 353 29 nE nB (by norm_num), dot_pair]; norm_num,
      by rw [abs_le]; norm_num⟩
  · exact ⟨5865 / 59657,
      by rw [cosSim_eval _ _ 353 169 nE nC (by norm_num), dot_pair]; norm_num,
      by rw [abs_le]; norm_num⟩

/-- Zipping two equally long lists against the same third list gives the
same second components. -/
theorem map_snd_zip_eq {α β γ : Type*} :
    ∀ (a : List α) (b : List β) (v : List γ), a.length = b.length →
      (a.zip v).map Prod.snd = (b.zip v).map Prod.snd := by
  intro a
  induction a with
  | nil =>
    intro b v h
    cases b with
    | nil => rfl
    | cons y b => simp at h
  | cons x a ih =>
    intro b v h
    cases b with
    | nil => simp at h
    | cons y b =>
      cases v with
      | nil => rfl
      | cons w v =>
        simp only [List.zip_cons_cons, List.map_cons]
        rw [ih b v (by simpa using h)]

/-- Two chunk-level folds over inputs with identical vector components and
identically shaped states produce identically shaped results: the break
decisions inspect only the vectors and the length of the current
paragraph, never the sentence texts. -/
theorem shape_dep_fold (t : ℝ) (maxS wsize : ℕ) :
    ∀ (r1 r2 : List (String × List ℝ)), r1.map Prod.snd = r2.map Prod.snd →
      ∀ (st1 st2 : SegStateC),
        st1.chunks.map List.length = st2.chunks.map List.length →
        st1.currentPara.length = st2.currentPara.length →
        st1.prevVectors = st2.prevVectors →
        (segFinishC (r1.foldl (segStepC t maxS wsize) st1)).map List.length =
          (segFinishC (r2.foldl (segStepC t maxS wsize) st2)).map List.length := by
  intro r1
  induction r1 with
  | nil =>
    intro r2 hv st1 st2 hch hcur hprev
    have hr2 : r2 = [] := by
      cases r2 with
      | nil => rfl
      | cons q r2 => simp at hv
    subst hr2
    simp only [List.foldl_nil, segFinishC]
    by_cases h1 : st1.currentPara = []
    · have h2 : st2.currentPara = [] :=
        List.length_eq_zero.mp (by rw [← hcur, h1]; rfl)
      simp [h1, h2, hch]
    · have h2 : st2.currentPara ≠ [] := by
        intro h
        exact h1 (List.length_eq_zero.mp (by rw [hcur, h]; rfl))
      simp only [if_neg h1, if_neg h2, List.map_append, List.map_cons, List.map_nil, hch, hcur]
  | cons p r1 ih =>
    intro r2 hv st1 st2 hch hcur hprev
    cases r2 with
    | nil => simp at hv
    | cons q r2 =>
      simp only [List.map_cons, List.cons.injEq] at hv
      obtain ⟨hpq, hv2⟩ := hv
      rw [List.foldl_cons, List.foldl_cons]
      by_cases hbr : simLt (avgSim p.2 (lastN wsize st1.prevVectors)) t ∨
          maxS ≤ st1.currentPara.length
      · have hbr2 : simLt (avgSim q.2 (lastN wsize st2.prevVectors)) t ∨
            maxS ≤ st2.currentPara.length := by
          rw [← hpq, ← hprev, ← hcur]
          exact hbr
        rw [show segStepC t maxS wsize st1 p =
            ⟨st1.chunks ++ [st1.currentPara], [p.1], lastN wsize [p.2]⟩ from
          by rw [segStepC, if_pos hbr]]
        rw [show segStepC t maxS wsize st2 q =
            ⟨st2.chunks ++ [st2.currentPara], [q.1], lastN wsize [q.2]⟩ from
          by rw [segStepC, if_pos hbr2]]
        exact ih r2 hv2 _ _ (by simp [hch, hcur]) (by simp) (by rw [hpq])
      · have hbr2 : ¬(simLt (avgSim q.2 (lastN wsize st2.prevVectors)) t ∨
            maxS ≤ st2.currentPara.length) := by
          rw [← hpq, ← hprev, ← hcur]
          exact hbr
        rw [show segStepC t maxS wsize st1 p =
            ⟨st1.chunks, st1.currentPara ++ [p.1], lastN wsize (st1.prevVectors ++ [p.2])⟩ from
          by rw [segStepC, if_neg hbr]]
        rw [show segStepC t maxS wsize st2 q =
            ⟨st2.chunks, st2.currentPara ++ [q.1], lastN wsize (st2.prevVectors ++ [q.2])⟩ from
          by rw [segStepC, if_neg hbr2]]
        exact ih r2 hv2 _ _ hch (by simp [hcur]) (by rw [hprev, hpq])

/-- C10: paragraph boundaries depend only on the vectors: two sentence
lists of the same length paired with the same vector list are segmented
into blocks of identical lengths, i.e. the break indices coincide. -/
theorem breaks_dep_only_on_vectors (t : ℝ) (maxS wsize : ℕ)
    (sents1 sents2 : List String) (vecs : List (List ℝ))
    (hlen : sents1.length = sents2.length) :
    (processChunks t maxS wsize sents1 vecs).map List.length =
      (processChunks t maxS wsize sents2 vecs).map List.length := by
  match sents1, sents2, vecs, hlen with
  | [], [], _, _ => rfl
  | [], s :: _, _, hlen => simp at hlen
  | s :: _, [], _, hlen => simp at hlen
  | s1 :: ss1, s2 :: ss2, [], _ => rfl
  | s1 :: ss1, s2 :: ss2, v0 :: vs, hlen =>
    exact shape_dep_fold t maxS wsize (ss1.zip vs) (ss2.zip vs)
      (map_snd_zip_eq ss1 ss2 vs (by simpa using hlen))
      ⟨[], [s1], [v0]⟩ ⟨[], [s2], [v0]⟩ rfl rfl rfl

/-- Closed instance of `breaks_dep_only_on_vectors` at a concrete input. -/
theorem breaks_dep_only_on_vectors_witness :
    (processChunks 0.65 4 2 ["a"] [[1]]).map List.length =
      (processChunks 0.65 4 2 ["b"] [[1]]).map List.length :=
  breaks_dep_only_on_vectors 0.65 4 2 ["a"] ["b"] [[1]] rfl

/-- C5 as stated is false: with a zero-norm window vector the computed
similarity is the NaN marker (`none`), not the fallback value 0, and in
consequence no similarity break is taken: the run keeps the two sentences
in one paragraph, while a 0 fallback (0 < 0.65) would have split them. -/
theorem zero_norm_counterexample :
    cosSim [(0 : ℝ), 0] [(1 : ℝ), 0] = none ∧
    cosSim [(0 : ℝ), 0] [(1 : ℝ), 0] ≠ some 0 ∧
    processParas 0.65 4 2 ["a", "b"] [[1, 0], [0, 0]] = ["a b"] := by
  have h00 : vnorm [(0 : ℝ), 0] = 0 := by simp [vnorm]
  have hz : vnorm [(0 : ℝ), 0] * vnorm [(1 : ℝ), 0] = 0 := by
    rw [h00]
    ring
  have hsim : cosSim [(0 : ℝ), 0] [(1 : ℝ), 0] = none := by rw [cosSim, if_pos hz]
  refine ⟨hsim, by simp [hsim], ?_⟩
  show segFinish ([(("b" : String), [(0 : ℝ), 0])].foldl (segStep 0.65 4 2)
    ⟨[], ["a"], [[1, 0]]⟩) = ["a b"]
  rw [List.foldl_cons, segStep_extend _ _ _ _ _ ?_, List.foldl_nil]
  · simp [segFinish]
    rfl
  · rw [show lastN 2 (SegState.mk [] ["a"] [[1, 0]]).prevVectors = [[(1 : ℝ), 0]] from rfl]
    rw [show (("b" : String), [(0 : ℝ), 0]).2 = [(0 : ℝ), 0] from rfl]
    rw [avgSim_nan_one _ _ hsim]
    simp [simLt]

/-- C5 amended: when the current vector or a window vector has zero norm,
the division of line 59 is 0/0, an IEEE NaN (`none` here), not a documented
0 fallback; a NaN comparison is false, so the similarity break condition is
not triggered by it, and the segmenter still returns a result (it is a
total function, as the concrete run in `zero_norm_counterexample` shows). -/
theorem zero_norm_gives_nan (t' : ℝ) (cur v : List ℝ)
    (h : vnorm cur * vnorm v = 0) :
    cosSim cur v = none ∧ ¬simLt (cosSim cur v) t' := by
  have hsim : cosSim cur v = none := by rw [cosSim, if_pos h]
  exact ⟨hsim, by rw [hsim]; simp [simLt]⟩

/-- Closed instance of `zero_norm_gives_nan` at a concrete input. -/
theorem zero_norm_gives_nan_witness :
    cosSim [(0 : ℝ), 0] [(1 : ℝ), 0] = none ∧
      ¬simLt (cosSim [(0 : ℝ), 0] [(1 : ℝ), 0]) 0.65 :=
  zero_norm_gives_nan 0.65 [(0 : ℝ), 0] [(1 : ℝ), 0]
    (by rw [show vnorm [(0 : ℝ), 0] = 0 from by simp [vnorm]]; ring)

/-- C7: the segmenter does not fail on empty or single-sentence input: zero
sentences give the empty paragraph sequence (and the empty output text), and
one sentence gives exactly one paragraph holding that sentence — for every
configuration. -/
theorem empty_and_singleton_input :
    (∀ (t : ℝ) (m w : ℕ), processParas t m w [] [] = []) ∧
    (∀ (t : ℝ) (m w : ℕ), processText t m w [] [] = "") ∧
    (∀ (t : ℝ) (m w : ℕ) (s : String) (v : List ℝ), processParas t m w [s] [v] = [s]) := by
  refine ⟨fun t m w => rfl, fun t m w => rfl, fun t m w s v => ?_⟩
  show segFinish ⟨[], [s], [v]⟩ = [s]
  simp [segFinish]
  rfl

/-- C6: the segmenter is a pure function of the sentence list, the vector
list and the configuration: two runs on equal inputs with equal
configuration give equal outputs (and, the embedding being functional, the
inputs are never mutated). -/
theorem segmenter_deterministic (t t' : ℝ) (m m' w w' : ℕ)
    (s1 s2 : List String) (v1 v2 : List (List ℝ))
    (ht : t = t') (hm : m = m') (hw : w = w') (hs : s1 = s2) (hv : v1 = v2) :
    processParas t m w s1 v1 = processParas t' m' w' s2 v2 := by
  rw [ht, hm, hw, hs, hv]

/-- Closed instance of `segmenter_deterministic` at a concrete input. -/
theorem segmenter_deterministic_witness :
    processParas 0.65 4 2 ["a"] [[1]] = processParas 0.65 4 2 ["a"] [[1]] :=
  segmenter_deterministic 0.65 0.65 4 4 2 2 ["a"] ["a"] [[1]] [[1]] rfl rfl rfl rfl rfl

/-- Decomposition of a list that starts with a time marker. -/
theorem isMarker_chars (l : List Char) (h : isMarker l = true) :
    ∃ b c e f rest, l = '[' :: b :: c :: ':' :: e :: f :: ']' :: rest ∧
      b.isDigit = true ∧ c.isDigit = true ∧ e.isDigit = true ∧ f.isDigit = true := by
  rcases l with _ | ⟨a, _ | ⟨b, _ | ⟨c, _ | ⟨d, _ | ⟨e, _ | ⟨f, _ | ⟨g, rest⟩⟩⟩⟩⟩⟩⟩ <;>
    simp [isMarker, Bool.and_eq_true, beq_iff_eq] at h
  obtain ⟨⟨⟨⟨⟨⟨ha, hb⟩, hc⟩, hd⟩, he⟩, hf⟩, hg⟩ := h
  subst ha
  subst hd
  subst hg
  exact ⟨b, c, e, f, rest, rfl, hb, hc, he, hf⟩

/-- A marker starts with the character `[`. -/
theorem isMarker_head (l : List Char) (h : isMarker l = true) : l.head? = some '[' := by
  obtain ⟨b, c, e, f, rest, heq, _, _, _, _⟩ := isMarker_chars l h
  rw [heq]
  rfl

/-- As long as the padded text contains no newline, it agrees with the
original text: `padMarkers` only ever inserts newlines. -/
theorem pad_take_no_newline :
    ∀ (n : ℕ) (cs : List Char), cs.length ≤ n →
      ∀ (k : ℕ), (∀ ch ∈ (padMarkers cs).take k, ch ≠ '\n') →
        (padMarkers cs).take k = cs.take k := by
  intro n
  induction n with
  | zero =>
    intro cs hlen k hk
    have hnil : cs = [] := List.length_eq_zero.mp (by omega)
    subst hnil
    rw [show padMarkers ([] : List Char) = [] from by rw [padMarkers]]
  | succ n ih =>
    intro cs hlen k hk
    match cs with
    | [] => rw [show padMarkers ([] : List Char) = [] from by rw [padMarkers]]
    | c :: cs' =>
      by_cases hm : isMarker (c :: cs') = true
      · rw [padMarkers, if_pos hm] at hk ⊢
        match k with
        | 0 => rfl
        | k + 1 => exact absurd rfl (hk '\n' (by simp))
      · rw [padMarkers, if_neg hm] at hk ⊢
        match k with
        | 0 => rfl
        | k + 1 =>
          simp only [List.take_succ_cons] at hk ⊢
          rw [ih cs' (by simp at hlen; omega) k
            (fun ch hch => hk ch (by simp [hch]))]

/-- The padded text never has a marker at position 0: a marker either got
two newlines inserted in front of it, or the unchanged leading characters
would already have been a marker in the original text and taken the first
branch of the scan. -/
theorem pad_no_marker_head :
    ∀ (n : ℕ) (l : List Char), l.length ≤ n → ¬isMarker (padMarkers l) = true := by
  intro n
  induction n with
  | zero =>
    intro l hlen h
    have hnil : l = [] := List.length_eq_zero.mp (by omega)
    subst hnil
    rw [show padMarkers ([] : List Char) = [] from by rw [padMarkers]] at h
    simp [isMarker] at h
  | succ n ih =>
    intro l hlen h
    match l with
    | [] =>
      rw [show padMarkers ([] : List Char) = [] from by rw [padMarkers]] at h
      simp [isMarker] at h
    | c :: cs =>
      by_cases hm : isMarker (c :: cs) = true
      · rw [padMarkers, if_pos hm] at h
        have hhd := isMarker_head _ h
        rw [show (('\n' : Char) :: '\n' :: ((c :: cs).take 7 ++
            '\n' :: '\n' :: padMarkers ((c :: cs).drop 7))).head? = some '\n' from rfl] at hhd
        exact absurd (Option.some_inj.mp hhd) (by decide)
      · rw [padMarkers, if_neg hm] at h
        obtain ⟨b, c2, e, f, rest, heq, hb, hc2, he, hf⟩ := isMarker_chars _ h
        injection heq with h1 h2
        have h6 : (padMarkers cs).take 6 = [b, c2, ':', e, f, ']'] := by
          rw [h2]
          rfl
        have hnn : ∀ ch ∈ (padMarkers cs).take 6, ch ≠ '\n' := by
          rw [h6]
          intro ch hch
          simp only [List.mem_cons, List.not_mem_nil, or_false] at hch
          rcases hch with h' | h' | h' | h' | h' | h' <;> subst h'
          · intro hne
            rw [hne] at hb
            exact absurd hb (by decide)
          · intro hne
            rw [hne] at hc2
            exact absurd hc2 (by decide)
          · decide
          · intro hne
            rw [hne] at he
            exact absurd he (by decide)
          · intro hne
            rw [hne] at hf
            exact absurd hf (by decide)
          · decide
        have htake : (padMarkers cs).take 6 = cs.take 6 :=
          pad_take_no_newline cs.length cs le_rfl 6 hnn
        have hcs : cs = [b, c2, ':', e, f, ']'] ++ cs.drop 6 := by
          conv_lhs => rw [← List.take_append_drop 6 cs]
          rw [← htake, h6]
        apply hm
        rw [h1, hcs]
        simp [isMarker, hb, hc2, he, hf]

/-- Main induction for the padding property: every marker occurrence in the
padded text sits at some position `p ≥ 2` with two newlines immediately
before it and two newlines immediately after it. -/
theorem c9_aux :
    ∀ (n : ℕ) (l : List Char), l.length ≤ n →
      ∀ (p : ℕ), isMarker ((padMarkers l).drop p) = true →
        2 ≤ p ∧ ((padMarkers l).drop (p - 2)).take 2 = ['\n', '\n'] ∧
          ((padMarkers l).drop (p + 7)).take 2 = ['\n', '\n'] := by
  intro n
  induction n with
  | zero =>
    intro l hlen p h
    have hnil : l = [] := List.length_eq_zero.mp (by omega)
    subst hnil
    rw [show padMarkers ([] : List Char) = [] from by rw [padMarkers]] at h
    simp [isMarker] at h
  | succ n ih =>
    intro l hlen p h
    match l with
    | [] =>
      rw [show padMarkers ([] : List Char) = [] from by rw [padMarkers]] at h
      simp [isMarker] at h
    | c :: cs =>
      by_cases hm : isMarker (c :: cs) = true
      · obtain ⟨b, c2, e, f, rest, heq, hb, hc2, he, hf⟩ := isMarker_chars _ hm
        have hpad : padMarkers (c :: cs) =
            '\n' :: '\n' :: '[' :: b :: c2 :: ':' :: e :: f :: ']' :: '\n' :: '\n' ::
              padMarkers rest := by
          rw [padMarkers, if_pos hm, heq]
          rfl
        injection heq with hc1 hcs
        have hrlen : rest.length ≤ n := by
          rw [hcs] at hlen
          simp at hlen
          omega
        rw [hpad] at h ⊢
        have edrop : ∀ m, ('\n' :: '\n' :: '[' :: b :: c2 :: ':' :: e :: f :: ']' ::
            '\n' :: '\n' :: padMarkers rest).drop (m + 11) = (padMarkers rest).drop m := by
          intro m
          rw [Nat.add_comm m 11, ← List.drop_drop]
          rfl
        rcases Nat.lt_or_ge p 11 with hp | hp
        · interval_cases p
          · have hhd := isMarker_head _ h
            exact absurd (Option.some_inj.mp hhd) (by decide)
          · have hhd := isMarker_head _ h
            exact absurd (Option.some_inj.mp hhd) (by decide)
          · exact ⟨le_refl 2, rfl, rfl⟩
          · have hhd := isMarker_head _ h
            have hbeq : b = '[' := Option.some_inj.mp hhd
            rw [hbeq] at hb
            exact absurd hb (by decide)
          · have hhd := isMarker_head _ h
            have hbeq : c2 = '[' := Option.some_inj.mp hhd
            rw [hbeq] at hc2
            exact absurd hc2 (by decide)
          · have hhd := isMarker_head _ h
            exact absurd (Option.some_inj.mp hhd) (by decide)
          · have hhd := isMarker_head _ h
            have hbeq : e = '[' := Option.some_inj.mp hhd
            rw [hbeq] at he
            exact absurd he (by decide)
          · have hhd := isMarker_head _ h
            have hbeq : f = '[' := Option.some_inj.mp hhd
            rw [hbeq] at hf
            exact absurd hf (by decide)
          · have hhd := isMarker_head _ h
            exact absurd (Option.some_inj.mp hhd) (by decide)
          · have hhd := isMarker_head _ h
            exact absurd (Option.some_inj.mp hhd) (by decide)
          · have hhd := isMarker_head _ h
            exact absurd (Option.some_inj.mp hhd) (by decide)
        · obtain ⟨q, rfl⟩ : ∃ q, p = q + 11 := ⟨p - 11, by omega⟩
          rw [edrop q] at h
          obtain ⟨hq2, hqpre, hqpost⟩ := ih rest hrlen q h
          refine ⟨by omega, ?_, ?_⟩
          · rw [show q + 11 - 2 = (q - 2) + 11 from by omega, edrop (q - 2)]
            exact hqpre
          · rw [show q + 11 + 7 = (q + 7) + 11 from by omega, edrop (q + 7)]
            exact hqpost
      · rw [padMarkers, if_neg hm] at h ⊢
        rcases p with _ | q
        · exact absurd (show isMarker (padMarkers (c :: cs)) = true from by
              rw [padMarkers, if_neg hm]
              exact h)
            (pad_no_marker_head (c :: cs).length (c :: cs) le_rfl)
        · have h' : isMarker ((padMarkers cs).drop q) = true := h
          obtain ⟨hq2, hqpre, hqpost⟩ := ih cs (by simp at hlen; omega) q h'
          refine ⟨by omega, ?_, ?_⟩
          · rw [show q + 1 - 2 = (q - 2) + 1 from by omega, List.drop_succ_cons]
            exact hqpre
          · rw [show q + 1 + 7 = (q + 7) + 1 from by omega, List.drop_succ_cons]
            exact hqpost

/-- C9: after the `save_result` transform, every substring matching the
bracketed time-marker pattern `[dd:dd]` is immediately preceded and
immediately followed by two newline characters, i.e. by a blank line. -/
theorem padMarkers_surrounds_markers (s : List Char) (p : ℕ)
    (h : isMarker ((padMarkers s).drop p) = true) :
    2 ≤ p ∧ ((padMarkers s).drop (p - 2)).take 2 = ['\n', '\n'] ∧
      ((padMarkers s).drop (p + 7)).take 2 = ['\n', '\n'] :=
  c9_aux s.length s le_rfl p h

/-- Closed instance of `padMarkers_surrounds_markers` at a concrete input. -/
theorem padMarkers_surrounds_markers_witness :
    2 ≤ 2 ∧
      ((padMarkers ['[', '0', '5', ':', '0', '0', ']']).drop (2 - 2)).take 2 =
        ['\n', '\n'] ∧
      ((padMarkers ['[', '0', '5', ':', '0', '0', ']']).drop (2 + 7)).take 2 =
        ['\n', '\n'] :=
  padMarkers_surrounds_markers ['[', '0', '5', ':', '0', '0', ']'] 2 (by
    have hps : padMarkers ['[', '0', '5', ':', '0', '0', ']'] =
        ['\n', '\n', '[', '0', '5', ':', '0', '0', ']', '\n', '\n'] := by
      simp [padMarkers, isMarker]
    rw [hps]
    decide)

end PPSplit
